import Mathlib

set_option autoImplicit false

namespace AcademicMetrics

/-!
Shallow embedding of the Category & Faculty Statistics Aggregation core of
the AcademicMetrics repository, together with proofs about the claims of
its specification.  Python dictionaries are modelled as association lists
(`List (String × V)`), which preserves insertion order, Python sets are
modelled as `Finset String`, and fallible Python code returns `Except`.
-/

/-! ### Association-list helpers (the embedding of Python `dict`) -/

/-- Lookup of a key in an association list: the value of the first matching
entry, `none` when the key is absent (a Python `dict` access that would
raise `KeyError` yields `none`). -/
def alist_lookup {V : Type} (k : String) : List (String × V) → Option V
  | [] => none
  | (k2, v) :: rest => if k2 = k then some v else alist_lookup k rest

/-- Assignment `d[k] = v` on a Python dict: replace the value of an existing
key in place, or append a brand-new key at the end (Python dicts keep
insertion order). -/
def alist_set {V : Type} (k : String) (v : V) : List (String × V) → List (String × V)
  | [] => [(k, v)]
  | (k2, w) :: rest => if k2 = k then (k2, v) :: rest else (k2, w) :: alist_set k v rest

/-- Deletion `del d[k]` on a Python dict: remove the first entry with the key. -/
def alist_erase {V : Type} (k : String) : List (String × V) → List (String × V)
  | [] => []
  | (k2, w) :: rest => if k2 = k then rest else (k2, w) :: alist_erase k rest

/-- Combined read-modify-write `d[k] = f(d.get(k))`: replace the value of an
existing key in place, or append the freshly built value at the end. -/
def alist_update {V : Type} (k : String) (f : Option V → V) : List (String × V) → List (String × V)
  | [] => [(k, f none)]
  | (k2, w) :: rest => if k2 = k then (k2, f (some w)) :: rest else (k2, w) :: alist_update k f rest

/-- The keys of an association list, in order (`list(d.keys())`). -/
def alist_keys {V : Type} (m : List (String × V)) : List String :=
  m.map Prod.fst

/-! ### C2 — the call sequence of `CategoryDataOrchestrator.run_orchestrator` -/

/-- One constructor per collaborator method invoked by
`CategoryDataOrchestrator.run_orchestrator` and by the helper
`CategoryDataOrchestrator.refine_faculty_sets` it delegates to. -/
inductive OrchStep where
  | process_data_list
  | remove_near_duplicates
  | update_faculty_count
  | update_department_count
  | refine_faculty_stats
  | save_all_results
  deriving DecidableEq

/-- Call sequence of the static method `refine_faculty_sets` in
`category_data_orchestrator.py`: it runs the postprocessor's
`remove_near_duplicates` and then the manager's `update_faculty_count` and
`update_department_count`, in that order. -/
def refine_faculty_sets_calls : List OrchStep :=
  [OrchStep.remove_near_duplicates, OrchStep.update_faculty_count,
   OrchStep.update_department_count]

/-- Call sequence of `run_orchestrator` in `category_data_orchestrator.py`:
`process_data_list` on the whole batch, then `refine_faculty_sets`
(expanded to its own call sequence), then `refine_faculty_stats`, then
`_save_all_results`. -/
def run_orchestrator_calls : List OrchStep :=
  [OrchStep.process_data_list] ++ refine_faculty_sets_calls ++
    [OrchStep.refine_faculty_stats, OrchStep.save_all_results]

/-- C2 (counterexample): the claim says the Relationship Tracker's count
recompute is invoked exactly twice during `run_orchestrator` — once before
name resolution and once after refinement.  In the code the recompute pair
`update_faculty_count` / `update_department_count` runs exactly once, inside
`refine_faculty_sets`, so the count of recompute steps in the call sequence
is 1, not 2. -/
theorem C2_counterexample_single_recompute :
    ¬ (run_orchestrator_calls.count OrchStep.update_faculty_count = 2 ∧
       run_orchestrator_calls.count OrchStep.update_department_count = 2) := by
  decide

/-- C2 (amended): `run_orchestrator` executes the Aggregator's
`process_data_list` over all records, then `remove_near_duplicates` (the
name resolution and faculty-set merge), then `update_faculty_count` and
`update_department_count` exactly once each, then `refine_faculty_stats`
(the canonical-name merge on faculty statistics), and then serializes the
results; the derived-count recompute happens exactly once, after the
resolver's set merges and before the statistics refinement. -/
theorem C2_run_orchestrator_sequence :
    run_orchestrator_calls =
      [OrchStep.process_data_list, OrchStep.remove_near_duplicates,
       OrchStep.update_faculty_count, OrchStep.update_department_count,
       OrchStep.refine_faculty_stats, OrchStep.save_all_results] ∧
    run_orchestrator_calls.count OrchStep.update_faculty_count = 1 ∧
    run_orchestrator_calls.count OrchStep.update_department_count = 1 := by
  decide

/-! ### C8 — the pipeline constructs the orchestrator with rejected keywords -/

/-- Keyword-only parameters accepted by `CategoryDataOrchestrator.__init__`
in `category_data_orchestrator.py` (`data`, `output_dir_path`,
`strategy_factory`, `warning_manager`, `utilities`, `extend`). -/
def category_data_orchestrator_init_params : List String :=
  ["data", "output_dir_path", "strategy_factory", "warning_manager",
   "utilities", "extend"]

/-- The parameters of `CategoryDataOrchestrator.__init__` that have no
default value (every parameter except `extend`). -/
def category_data_orchestrator_init_required : List String :=
  ["data", "output_dir_path", "strategy_factory", "warning_manager",
   "utilities"]

/-- Keyword arguments passed by `PipelineRunner._create_orchestrator` to the
`CategoryDataOrchestrator` constructor in `pipeline.py`. -/
def create_orchestrator_kwargs : List String :=
  ["data", "output_dir_path", "category_processor", "faculty_postprocessor",
   "warning_manager", "strategy_factory", "utilities", "dataclass_factory",
   "extend"]

/-- Methods defined on the `CategoryDataOrchestrator` class in
`category_data_orchestrator.py`. -/
def category_data_orchestrator_methods : List String :=
  ["__init__", "run_orchestrator", "_save_all_results", "_get_category_data",
   "refine_faculty_sets", "refine_faculty_stats", "addUrl",
   "generate_short_uuid_as_url", "_clean_category_data", "_flatten_to_list",
   "_write_to_json", "serialize_and_save_data",
   "serialize_and_save_faculty_stats", "serialize_and_save_article_stats",
   "serialize_and_save_article_stats_obj",
   "serialize_and_save_global_faculty_stats", "convert_sets_to_lists"]

/-- Getter methods that `PipelineRunner.run_pipeline` invokes on the freshly
constructed orchestrator in `pipeline.py` (lines 174–177). -/
def run_pipeline_getter_calls : List String :=
  ["get_final_category_data", "get_final_article_data",
   "get_final_global_faculty_data"]

/-- Python keyword-call semantics: the call raises `TypeError` when a passed
keyword is not among the accepted parameters, or when a required parameter
is not passed. -/
def call_with_kwargs (params required passed : List String) : Except String Unit :=
  if passed.all (fun k => params.contains k) then
    if required.all (fun k => passed.contains k) then Except.ok ()
    else Except.error "TypeError: missing required argument"
  else Except.error "TypeError: unexpected keyword argument"

/-- C8 (counterexample): the claim names `get_final_global_faculty_stats` as
one of the getter methods that `run_pipeline` calls, but the source calls
`get_final_global_faculty_data`; the claimed method name never occurs in the
call list. -/
theorem C8_counterexample_getter_name :
    "get_final_global_faculty_stats" ∉ run_pipeline_getter_calls := by
  decide

/-- C8 (amended): `_create_orchestrator` passes the keyword arguments
`category_processor`, `faculty_postprocessor` and `dataclass_factory`, which
`CategoryDataOrchestrator.__init__` does not accept, so the construction
raises `TypeError` before any aggregation or serialization runs; and
`run_pipeline` additionally calls `get_final_category_data`,
`get_final_article_data` and `get_final_global_faculty_data`, none of which
`CategoryDataOrchestrator` defines. -/
theorem C8_orchestrator_construction_fails :
    call_with_kwargs category_data_orchestrator_init_params
        category_data_orchestrator_init_required create_orchestrator_kwargs
      = Except.error "TypeError: unexpected keyword argument" ∧
    "category_processor" ∈ create_orchestrator_kwargs ∧
    "category_processor" ∉ category_data_orchestrator_init_params ∧
    "faculty_postprocessor" ∈ create_orchestrator_kwargs ∧
    "faculty_postprocessor" ∉ category_data_orchestrator_init_params ∧
    "dataclass_factory" ∈ create_orchestrator_kwargs ∧
    "dataclass_factory" ∉ category_data_orchestrator_init_params ∧
    (∀ m ∈ run_pipeline_getter_calls, m ∉ category_data_orchestrator_methods) := by
  refine ⟨rfl, ?_⟩
  decide

/-! ### C9 — `ArticleDatabase.insert_articles` always fails -/

/-- A fragment of the Python value model used by `DatabaseSetup.py`: JSON-like
values with dicts, lists, strings and numbers, plus sets (needed by the
serialization helpers of the orchestrator). -/
inductive PyVal where
  | prim (n : Nat)
  | str (s : String)
  | set (elems : List PyVal)
  | list (elems : List PyVal)
  | dict (entries : List (String × PyVal))

/-- The Python attribute access `x.items()`: succeeds on a dict, raises
`AttributeError` on every other value (in particular on a list). -/
def PyVal.items : PyVal → Except String (List (String × PyVal))
  | PyVal.dict entries => Except.ok entries
  | _ => Except.error "AttributeError"

/-- The statement `value["_id"] = key` from the loop body of
`insert_articles`. -/
def assign_id_field (key : String) (value : PyVal) : PyVal :=
  match value with
  | PyVal.dict entries => PyVal.dict (alist_set "_id" (PyVal.str key) entries)
  | v => v

/-- The body of `ArticleDatabase.insert_articles` from `DatabaseSetup.py`:
the parameter `article_data` is immediately rebound to the empty list, after
which the loop header calls `.items()` on that list; the returned rows would
be handed to `insert_data`. -/
def insert_articles (article_data : PyVal) : Except String (List PyVal) := do
  let article_data := PyVal.list []
  let pairs ← article_data.items
  let rows := pairs.map (fun kv => assign_id_field kv.1 kv.2)
  Except.ok rows

/-- C9: for every input dictionary (including the empty one),
`insert_articles` raises `AttributeError` and inserts nothing: the parameter
is rebound to an empty list whose `.items()` attribute does not exist, so
`insert_data` is never reached with the caller's data. -/
theorem C9_insert_articles_attribute_error (entries : List (String × PyVal)) :
    insert_articles (PyVal.dict entries) = Except.error "AttributeError" := rfl

/-! ### C6 — the DOI pre-filter in `PipelineRunner.run_pipeline` -/

/-- An article as seen by the pre-filter of `run_pipeline`: the result of
`Utilities.get_attributes(article, [AttributeTypes.CROSSREF_DOI])`, i.e. a
flag saying whether the DOI attribute was successfully extracted, the
extracted DOI value, and the remaining payload. -/
structure CrossrefArticle where
  doi_found : Bool
  doi_value : String
  payload : String
  deriving DecidableEq

/-- The filtering loop of `run_pipeline` (lines 130–147 of `pipeline.py`):
keep an article exactly when its DOI tuple reports success and the DOI value
is not among the already-known identifiers. -/
def run_pipeline_filter_articles (existing_dois : List String) :
    List CrossrefArticle → List CrossrefArticle
  | [] => []
  | article :: rest =>
    if article.doi_found ∧ article.doi_value ∉ existing_dois then
      article :: run_pipeline_filter_articles existing_dois rest
    else
      run_pipeline_filter_articles existing_dois rest

/-- C6: for every fetched batch and every externally supplied set of
already-known identifiers, an article survives the pre-filter of
`run_pipeline` if and only if it occurs in the batch, its DOI attribute was
successfully extracted, and its DOI value is not already known. -/
theorem C6_filter_retains_iff (existing_dois : List String)
    (data : List CrossrefArticle) (a : CrossrefArticle) :
    a ∈ run_pipeline_filter_articles existing_dois data ↔
      a ∈ data ∧ a.doi_found = true ∧ a.doi_value ∉ existing_dois := by
  induction data with
  | nil => simp [run_pipeline_filter_articles]
  | cons b rest ih =>
    by_cases hb : b.doi_found ∧ b.doi_value ∉ existing_dois
    · simp only [run_pipeline_filter_articles, if_pos hb, List.mem_cons, ih]
      constructor
      · rintro (rfl | ⟨hmem, hfound, hnot⟩)
        · exact ⟨Or.inl rfl, hb.1, hb.2⟩
        · exact ⟨Or.inr hmem, hfound, hnot⟩
      · rintro ⟨rfl | hmem, hfound, hnot⟩
        · exact Or.inl rfl
        · exact Or.inr ⟨hmem, hfound, hnot⟩
    · simp only [run_pipeline_filter_articles, if_neg hb, List.mem_cons, ih]
      constructor
      · rintro ⟨hmem, hfound, hnot⟩
        exact ⟨Or.inr hmem, hfound, hnot⟩
      · rintro ⟨rfl | hmem, hfound, hnot⟩
        · exact absurd ⟨hfound, hnot⟩ hb
        · exact ⟨hmem, hfound, hnot⟩

/-! ### The CategoryInfo data model and the Relationship Tracker (C1) -/

/-- One `CategoryInfo` record per distinct category, as described by the data
model: running totals, the article-identifier / faculty / department sets
(Python sets, modelled as `Finset String`), the derived counts, and the
URL-safe slug. -/
structure CategoryInfo where
  category_name : String
  article_count : Nat
  tc_list : List Nat
  dois : Finset String
  faculty : Finset String
  departments : Finset String
  faculty_count : Nat
  department_count : Nat
  url : String
  deriving DecidableEq

/-- Modelled from the spec: `FacultyDepartmentManager.update_faculty_count`
(the class is not under src/) recomputes every category's derived
`faculty_count` from the cardinality of its current faculty-name set. -/
def update_faculty_count (cd : List (String × CategoryInfo)) : List (String × CategoryInfo) :=
  cd.map (fun p => (p.1, { p.2 with faculty_count := p.2.faculty.card }))

/-- Modelled from the spec: `FacultyDepartmentManager.update_department_count`
(the class is not under src/) recomputes every category's derived
`department_count` from the cardinality of its current department-name set. -/
def update_department_count (cd : List (String × CategoryInfo)) : List (String × CategoryInfo) :=
  cd.map (fun p => (p.1, { p.2 with department_count := p.2.departments.card }))

/-- Modelled from the spec: `FacultyPostprocessor.remove_near_duplicates`
(the class is not under src/) collapses near-duplicate faculty spellings in
every category's faculty set; the similarity policy is pluggable, so it is
taken as a parameter `canon` mapping each spelling to its canonical name. -/
def remove_near_duplicates (canon : String → String)
    (cd : List (String × CategoryInfo)) : List (String × CategoryInfo) :=
  cd.map (fun p => (p.1, { p.2 with faculty := p.2.faculty.image canon }))

/-- The static method `CategoryDataOrchestrator.refine_faculty_sets` from
`category_data_orchestrator.py`: remove near-duplicate faculty entries, then
recompute the faculty and department counts. -/
def refine_faculty_sets (canon : String → String)
    (cd : List (String × CategoryInfo)) : List (String × CategoryInfo) :=
  update_department_count (update_faculty_count (remove_near_duplicates canon cd))

/-- C1: after the Relationship Tracker recompute performed by
`refine_faculty_sets`, every category's derived `faculty_count` equals the
cardinality of its faculty-name set and `department_count` equals the
cardinality of its department-name set; the recompute derives the counts
only from set sizes. -/
theorem C1_count_invariant (canon : String → String)
    (cd : List (String × CategoryInfo)) (name : String) (info : CategoryInfo)
    (h : (name, info) ∈ refine_faculty_sets canon cd) :
    info.faculty_count = info.faculty.card ∧
      info.department_count = info.departments.card := by
  simp only [refine_faculty_sets, update_department_count, update_faculty_count,
    List.mem_map] at h
  obtain ⟨p, ⟨q, hq, rfl⟩, heq⟩ := h
  rw [Prod.mk.injEq] at heq
  obtain ⟨hname, hinfo⟩ := heq
  subst hinfo
  exact ⟨rfl, rfl⟩

/-- A concrete category whose stored derived counts are stale (zero) while
its faculty and department sets are non-empty. -/
def c1_stale_info : CategoryInfo :=
  { category_name := "COM", article_count := 1, tc_list := [4],
    dois := {"10.1/x"}, faculty := {"J. Smith", "John Smith"},
    departments := {"Computer Science"}, faculty_count := 0,
    department_count := 0, url := "" }

/-- The same category after the `refine_faculty_sets` recompute with the
identity canonicalization policy. -/
def c1_refined_info : CategoryInfo :=
  { c1_stale_info with faculty_count := 2, department_count := 1 }

/-- C1 witness: a concrete category whose stored counts are stale before the
recompute; after `refine_faculty_sets` both derived counts equal the
cardinalities of the corresponding sets. -/
theorem C1_count_invariant_witness :
    (("COM", c1_refined_info) ∈
        refine_faculty_sets (fun n => n) [("COM", c1_stale_info)]) ∧
    c1_refined_info.faculty_count = c1_refined_info.faculty.card ∧
    c1_refined_info.department_count = c1_refined_info.departments.card := by
  have h : ("COM", c1_refined_info) ∈
      refine_faculty_sets (fun n => n) [("COM", c1_stale_info)] := by
    simp [refine_faculty_sets, update_department_count, update_faculty_count,
      remove_near_duplicates, c1_refined_info, c1_stale_info]
  exact ⟨h, C1_count_invariant _ _ _ _ h⟩

/-! ### Association-list lemmas -/

theorem alist_lookup_update_self {V : Type} (k : String) (f : Option V → V)
    (m : List (String × V)) :
    alist_lookup k (alist_update k f m) = some (f (alist_lookup k m)) := by
  induction m with
  | nil => simp [alist_lookup, alist_update]
  | cons hd tl ih =>
    obtain ⟨k2, w⟩ := hd
    by_cases hk : k2 = k
    · simp [alist_lookup, alist_update, hk]
    · simp [alist_lookup, alist_update, hk, ih]

theorem alist_lookup_update_other {V : Type} (k c : String) (f : Option V → V)
    (m : List (String × V)) (hne : c ≠ k) :
    alist_lookup c (alist_update k f m) = alist_lookup c m := by
  induction m with
  | nil =>
    simp only [alist_update, alist_lookup]
    rw [if_neg (fun h : k = c => hne h.symm)]
  | cons hd tl ih =>
    obtain ⟨k2, w⟩ := hd
    simp only [alist_update]
    by_cases hk : k2 = k
    · rw [if_pos hk]
      have hk2c : ¬ k2 = c := fun h => hne (h.symm.trans hk)
      simp only [alist_lookup]
      rw [if_neg hk2c, if_neg hk2c]
    · rw [if_neg hk]
      simp only [alist_lookup]
      by_cases hc : k2 = c
      · rw [if_pos hc, if_pos hc]
      · rw [if_neg hc, if_neg hc]
        exact ih

theorem alist_update_eq_self {V : Type} (k : String) (f : Option V → V)
    (m : List (String × V)) (v : V) (hl : alist_lookup k m = some v)
    (hf : f (some v) = v) : alist_update k f m = m := by
  induction m with
  | nil => simp [alist_lookup] at hl
  | cons hd tl ih =>
    obtain ⟨k2, w⟩ := hd
    by_cases hk : k2 = k
    · simp only [alist_lookup, if_pos hk, Option.some.injEq] at hl
      subst hl
      simp [alist_update, hk, hf]
    · simp only [alist_lookup, if_neg hk] at hl
      simp [alist_update, hk, ih hl]

/-! ### The Category Aggregator (C3 and C5) -/

/-- A classified publication record as consumed by the aggregation core: the
article identifier (absent when extraction failed), title, citation count,
author names, department affiliations, and the taxonomy categories assigned
by classification. -/
structure ClassifiedRecord where
  doi : Option String
  title : String
  tc_count : Nat
  faculty_members : List String
  faculty_affiliations : List String
  categories : List String
  deriving DecidableEq

/-- A freshly created `CategoryInfo`, built lazily on the first record that
tags the category. -/
def new_category_info (cat : String) : CategoryInfo :=
  { category_name := cat, article_count := 0, tc_list := [], dois := ∅,
    faculty := ∅, departments := ∅, faculty_count := 0, department_count := 0,
    url := "" }

/-- Modelled from the spec: the per-category contribution of one record made
by `CategoryProcessor` (the class is not under src/, §4.1): if the article
identifier is already present in the category's article-identifier set the
whole contribution is skipped, otherwise the article count is incremented,
the citation count appended, and the identifier, author names and department
affiliations added to the category's sets. -/
def add_record_to_category (r : ClassifiedRecord) (doi : String)
    (info : CategoryInfo) : CategoryInfo :=
  if doi ∈ info.dois then info
  else
    { info with
      article_count := info.article_count + 1,
      tc_list := info.tc_list ++ [r.tc_count],
      dois := insert doi info.dois,
      faculty := info.faculty ∪ r.faculty_members.toFinset,
      departments := info.departments ∪ r.faculty_affiliations.toFinset }

/-- Modelled from the spec: `CategoryProcessor`'s fold of one well-formed
record into `category_data` — for each tagged category, locate-or-create the
`CategoryInfo` and add the record's contribution. -/
def process_valid_record (r : ClassifiedRecord) (doi : String)
    (cd : List (String × CategoryInfo)) : List (String × CategoryInfo) :=
  r.categories.foldl
    (fun cd cat =>
      alist_update cat
        (fun ov => add_record_to_category r doi (ov.getD (new_category_info cat))) cd)
    cd

/-- The aggregation state: the `category_data` map and the warning
collector's accumulated diagnostics. -/
structure ProcessorState where
  category_data : List (String × CategoryInfo)
  warnings : List String
  deriving DecidableEq

/-- The non-fatal diagnostic recorded for a malformed record. -/
def malformed_diag (r : ClassifiedRecord) : String :=
  "MalformedRecord: " ++ r.title

/-- Modelled from the spec: `CategoryProcessor`'s handling of a single
record (§4.1 and §4.5) — a record with no identifier or no category tags is
excluded from aggregation and reported through the warning collector;
otherwise it is folded into `category_data`. -/
def process_single_record (st : ProcessorState) (r : ClassifiedRecord) :
    ProcessorState :=
  match r.doi with
  | none => { st with warnings := st.warnings ++ [malformed_diag r] }
  | some doi =>
    if r.categories.isEmpty then
      { st with warnings := st.warnings ++ [malformed_diag r] }
    else
      { st with category_data := process_valid_record r doi st.category_data }

/-- Modelled from the spec: `CategoryProcessor.process_data_list` (the class
is not under src/) folds the whole batch, one record at a time, never
aborting on a malformed record. -/
def process_data_list (st : ProcessorState) (records : List ClassifiedRecord) :
    ProcessorState :=
  records.foldl process_single_record st

/-- The article identifier is present in a category's identifier set after
the record's contribution is added. -/
theorem doi_mem_add_record (r : ClassifiedRecord) (doi : String)
    (info : CategoryInfo) : doi ∈ (add_record_to_category r doi info).dois := by
  unfold add_record_to_category
  split
  · assumption
  · exact Finset.mem_insert_self doi info.dois

/-- A record whose identifier is already present contributes nothing: the
category is returned unchanged. -/
theorem add_record_of_mem (r : ClassifiedRecord) (doi : String)
    (info : CategoryInfo) (h : doi ∈ info.dois) :
    add_record_to_category r doi info = info := by
  unfold add_record_to_category
  exact if_pos h

/-- The category map has an entry for `cat` whose identifier set contains
`doi`. -/
def has_doi (doi : String) (cd : List (String × CategoryInfo)) (cat : String) :
    Prop :=
  ∃ v, alist_lookup cat cd = some v ∧ doi ∈ v.dois

/-- One fold step of `process_valid_record`, named for reuse in the lemmas. -/
def record_fold_step (r : ClassifiedRecord) (doi : String)
    (cd : List (String × CategoryInfo)) (cat : String) :
    List (String × CategoryInfo) :=
  alist_update cat
    (fun ov => add_record_to_category r doi (ov.getD (new_category_info cat))) cd

theorem process_valid_record_eq_fold (r : ClassifiedRecord) (doi : String)
    (cd : List (String × CategoryInfo)) :
    process_valid_record r doi cd = r.categories.foldl (record_fold_step r doi) cd := rfl

/-- After a fold step at `cat`, the entry at `cat` contains the identifier. -/
theorem record_fold_step_has_doi (r : ClassifiedRecord) (doi : String)
    (cd : List (String × CategoryInfo)) (cat : String) :
    has_doi doi (record_fold_step r doi cd cat) cat := by
  refine ⟨add_record_to_category r doi ((alist_lookup cat cd).getD (new_category_info cat)), ?_, ?_⟩
  · exact alist_lookup_update_self cat _ cd
  · exact doi_mem_add_record r doi _

/-- A fold step preserves the presence of the identifier at every category. -/
theorem record_fold_step_preserves_has_doi (r : ClassifiedRecord) (doi : String)
    (cd : List (String × CategoryInfo)) (cat c : String)
    (h : has_doi doi cd c) : has_doi doi (record_fold_step r doi cd cat) c := by
  by_cases hc : c = cat
  · subst hc
    exact record_fold_step_has_doi r doi cd c
  · obtain ⟨v, hl, hd⟩ := h
    exact ⟨v, (alist_lookup_update_other cat c _ cd hc).trans hl, hd⟩

/-- After folding the record over a category list, every listed category's
entry contains the identifier. -/
theorem fold_has_doi (r : ClassifiedRecord) (doi : String) :
    ∀ (cats : List String) (cd : List (String × CategoryInfo)) (c : String),
      (c ∈ cats ∨ has_doi doi cd c) →
      has_doi doi (cats.foldl (record_fold_step r doi) cd) c := by
  intro cats
  induction cats with
  | nil =>
    intro cd c h
    rcases h with h | h
    · exact absurd h (List.not_mem_nil c)
    · exact h
  | cons cat rest ih =>
    intro cd c h
    rcases h with h | h
    · rcases List.mem_cons.mp h with rfl | hrest
      · exact ih _ c (Or.inr (record_fold_step_has_doi r doi cd c))
      · exact ih _ c (Or.inl hrest)
    · exact ih _ c (Or.inr (record_fold_step_preserves_has_doi r doi cd cat c h))

/-- Folding a record whose identifier is already present in every listed
category's entry leaves the category map unchanged. -/
theorem fold_skip_of_has_doi (r : ClassifiedRecord) (doi : String) :
    ∀ (cats : List String) (cd : List (String × CategoryInfo)),
      (∀ c ∈ cats, has_doi doi cd c) →
      cats.foldl (record_fold_step r doi) cd = cd := by
  intro cats
  induction cats with
  | nil => intro cd _; rfl
  | cons cat rest ih =>
    intro cd h
    obtain ⟨v, hl, hd⟩ := h cat (List.mem_cons_self cat rest)
    have hstep : record_fold_step r doi cd cat = cd := by
      refine alist_update_eq_self cat _ cd v hl ?_
      simp only [Option.getD_some]
      exact add_record_of_mem r doi v hd
    rw [List.foldl_cons, hstep]
    exact ih cd (fun c hc => h c (List.mem_cons_of_mem cat hc))

/-- Folding the same well-formed record into `category_data` a second time
changes nothing. -/
theorem process_valid_record_idem (r : ClassifiedRecord) (doi : String)
    (cd : List (String × CategoryInfo)) :
    process_valid_record r doi (process_valid_record r doi cd) =
      process_valid_record r doi cd := by
  simp only [process_valid_record_eq_fold]
  exact fold_skip_of_has_doi r doi r.categories _
    (fun c hc => fold_has_doi r doi r.categories cd c (Or.inl hc))

/-- Processing one record twice in a row yields the same `category_data` as
processing it once. -/
theorem process_single_record_idem (st : ProcessorState) (r : ClassifiedRecord) :
    (process_single_record (process_single_record st r) r).category_data =
      (process_single_record st r).category_data := by
  unfold process_single_record
  match hdoi : r.doi with
  | none => simp
  | some doi =>
    by_cases hempty : r.categories.isEmpty
    · simp [hempty]
    · simp [hempty, process_valid_record_idem]

/-- C3: aggregation is idempotent-safe against repeated article identifiers
— for every batch and every aggregation state, appending the same
`ClassifiedRecord` twice yields `category_data` identical to appending it
once, because a record whose identifier is already present in a category's
identifier set contributes nothing to that category. -/
theorem C3_no_double_counting (st : ProcessorState)
    (records : List ClassifiedRecord) (r : ClassifiedRecord) :
    (process_data_list st (records ++ [r, r])).category_data =
      (process_data_list st (records ++ [r])).category_data := by
  unfold process_data_list
  rw [List.foldl_append, List.foldl_append]
  exact process_single_record_idem _ r

/-- The evolution of `category_data` does not depend on the accumulated
warnings. -/
theorem process_category_data_congr :
    ∀ (records : List ClassifiedRecord) (st1 st2 : ProcessorState),
      st1.category_data = st2.category_data →
      (process_data_list st1 records).category_data =
        (process_data_list st2 records).category_data := by
  intro records
  induction records with
  | nil => intro st1 st2 h; exact h
  | cons r rest ih =>
    intro st1 st2 h
    refine ih _ _ ?_
    unfold process_single_record
    match r.doi with
    | none => simpa using h
    | some doi =>
      by_cases hempty : r.categories.isEmpty
      · simpa [hempty] using h
      · simpa [hempty] using congrArg (process_valid_record r doi) h

/-- Diagnostics already collected are never dropped by further processing. -/
theorem process_warnings_monotone :
    ∀ (records : List ClassifiedRecord) (st : ProcessorState) (w : String),
      w ∈ st.warnings → w ∈ (process_data_list st records).warnings := by
  intro records
  induction records with
  | nil => intro st w h; exact h
  | cons r rest ih =>
    intro st w h
    refine ih _ w ?_
    unfold process_single_record
    match r.doi with
    | none => exact List.mem_append_left _ h
    | some doi =>
      by_cases hempty : r.categories.isEmpty
      · simp only [hempty, if_true]
        exact List.mem_append_left _ h
      · simpa [hempty] using h

/-- C5: a record missing a required field (no identifier, or an empty
category list) is excluded from aggregation — the resulting `category_data`
is the one obtained from the batch without that record — while a non-fatal
`MalformedRecord` diagnostic is collected and the remaining records are
still processed; the batch never aborts. -/
theorem C5_malformed_record_skipped (st : ProcessorState)
    (pre post : List ClassifiedRecord) (r : ClassifiedRecord)
    (h : r.doi = none ∨ r.categories = []) :
    (process_data_list st (pre ++ r :: post)).category_data =
      (process_data_list st (pre ++ post)).category_data ∧
    malformed_diag r ∈ (process_data_list st (pre ++ r :: post)).warnings := by
  have hsplit : process_data_list st (pre ++ r :: post) =
      process_data_list (process_single_record (process_data_list st pre) r) post := by
    unfold process_data_list
    rw [List.foldl_append]
    rfl
  have hsplit2 : process_data_list st (pre ++ post) =
      process_data_list (process_data_list st pre) post := by
    unfold process_data_list
    rw [List.foldl_append]
  set st1 := process_data_list st pre with hst1
  have hmal : process_single_record st1 r =
      { st1 with warnings := st1.warnings ++ [malformed_diag r] } := by
    unfold process_single_record
    rcases h with h | h
    · rw [h]
    · match hdoi : r.doi with
      | none => rfl
      | some doi => simp [h]
  constructor
  · rw [hsplit, hsplit2]
    refine process_category_data_congr post _ _ ?_
    rw [hmal]
  · rw [hsplit]
    refine process_warnings_monotone post _ _ ?_
    rw [hmal]
    exact List.mem_append_right _ (List.mem_singleton.mpr rfl)

/-- C5 witness: a concrete batch in which the middle record has no
identifier; its contribution is skipped, the diagnostic is collected, and
the following record is still processed. -/
theorem C5_malformed_record_skipped_witness :
    ((ClassifiedRecord.mk none "broken" 0 [] [] ["COM"]).doi = none ∨
      (ClassifiedRecord.mk none "broken" 0 [] [] ["COM"]).categories = []) ∧
    ((process_data_list ⟨[], []⟩
        ([] ++ ClassifiedRecord.mk none "broken" 0 [] [] ["COM"] ::
          [ClassifiedRecord.mk (some "10.1/a") "ok" 3 ["J. Smith"] ["CS"] ["COM"]])).category_data =
      (process_data_list ⟨[], []⟩
        ([] ++ [ClassifiedRecord.mk (some "10.1/a") "ok" 3 ["J. Smith"] ["CS"] ["COM"]])).category_data ∧
    malformed_diag (ClassifiedRecord.mk none "broken" 0 [] [] ["COM"]) ∈
      (process_data_list ⟨[], []⟩
        ([] ++ ClassifiedRecord.mk none "broken" 0 [] [] ["COM"] ::
          [ClassifiedRecord.mk (some "10.1/a") "ok" 3 ["J. Smith"] ["CS"] ["COM"]])).warnings) :=
  ⟨Or.inl rfl, C5_malformed_record_skipped ⟨[], []⟩ [] _ _ (Or.inl rfl)⟩

/-! ### C10 — `convert_sets_to_lists` -/

/-- The body of `CategoryDataOrchestrator.convert_sets_to_lists` from
`category_data_orchestrator.py` (lines 391–399), acting on the entries of
the input dict: a set value is replaced by a list of its elements, a list
value is skipped (`continue`), a dict value is recursed into, and any other
value is left alone.  The Python function mutates the dict in place and
returns it; the model returns the transformed entries. -/
def convert_sets_to_lists : List (String × PyVal) → List (String × PyVal)
  | [] => []
  | (key, PyVal.set elems) :: rest =>
    (key, PyVal.list elems) :: convert_sets_to_lists rest
  | (key, PyVal.list elems) :: rest =>
    (key, PyVal.list elems) :: convert_sets_to_lists rest
  | (key, PyVal.dict entries) :: rest =>
    (key, PyVal.dict (convert_sets_to_lists entries)) :: convert_sets_to_lists rest
  | (key, v) :: rest => (key, v) :: convert_sets_to_lists rest

mutual

/-- Transformation of one value as the claim describes it: a set is replaced
by a list of its elements, a nested dictionary is recursed into, and every
other value — including a list, so a set nested inside a list survives — is
left untouched. -/
def claim_convert_value : PyVal → PyVal
  | PyVal.set elems => PyVal.list elems
  | PyVal.dict entries => PyVal.dict (claim_convert_entries entries)
  | v => v

/-- Entry-wise application of `claim_convert_value` to a dictionary's
entries, keys unchanged. -/
def claim_convert_entries : List (String × PyVal) → List (String × PyVal)
  | [] => []
  | (key, v) :: rest => (key, claim_convert_value v) :: claim_convert_entries rest

end

/-- C10: for every dictionary, `convert_sets_to_lists` returns the dictionary
with every set value — at the top level or inside any nested dictionary at
any depth — replaced by a list of its elements, every nested dictionary
recursed into, list values left untouched (so a set nested inside a list
remains a set), and all other values unchanged. -/
theorem C10_convert_sets_to_lists_spec (entries : List (String × PyVal)) :
    convert_sets_to_lists entries = claim_convert_entries entries := by
  induction entries using convert_sets_to_lists.induct with
  | case1 => simp [convert_sets_to_lists, claim_convert_entries]
  | case2 key elems rest ih =>
    simp [convert_sets_to_lists, claim_convert_entries, claim_convert_value, ih]
  | case3 key elems rest ih =>
    simp [convert_sets_to_lists, claim_convert_entries, claim_convert_value, ih]
  | case4 key inner rest ih1 ih2 =>
    simp [convert_sets_to_lists, claim_convert_entries, claim_convert_value, ih1, ih2]
  | case5 key v rest hset hlist hdict ih =>
    match v, hset, hlist, hdict with
    | PyVal.prim n, _, _, _ =>
      simp [convert_sets_to_lists, claim_convert_entries, claim_convert_value, ih]
    | PyVal.str s, _, _, _ =>
      simp [convert_sets_to_lists, claim_convert_entries, claim_convert_value, ih]
    | PyVal.set es, hset, _, _ => exact (hset es rfl).elim
    | PyVal.list es, _, hlist, _ => exact (hlist es rfl).elim
    | PyVal.dict es, _, _, hdict => exact (hdict es rfl).elim

/-! ### C7 — `addUrl` and the URL-safe slug -/

theorem char_le_iff_toNat (a b : Char) : a ≤ b ↔ a.toNat ≤ b.toNat := by
  rw [Char.le_def, UInt32.le_def, BitVec.le_def]
  rfl

theorem toNat_char_ofNat_of_valid (n : Nat) (h : n < 55296) :
    (Char.ofNat n).toNat = n := by
  have hv : n.isValidChar := Or.inl h
  simp [Char.ofNat, hv, Char.ofNatAux, Char.toNat, UInt32.toNat]

/-- ASCII lowering of one character, the effect of Python's `str.lower` on
the ASCII range (non-ASCII characters are irrelevant here because the
substitution step below replaces every non-ASCII character anyway). -/
def ascii_lower (c : Char) : Char :=
  if 'A' ≤ c ∧ c ≤ 'Z' then Char.ofNat (c.toNat + 32) else c

theorem ascii_lower_not_upper (c : Char) :
    ¬ ('A' ≤ ascii_lower c ∧ ascii_lower c ≤ 'Z') := by
  unfold ascii_lower
  by_cases h : 'A' ≤ c ∧ c ≤ 'Z'
  · rw [if_pos h]
    intro hcon
    have h1 : c.toNat ≤ 90 := by
      have := (char_le_iff_toNat c 'Z').mp h.2
      simpa using this
    have h2 : (Char.ofNat (c.toNat + 32)).toNat = c.toNat + 32 :=
      toNat_char_ofNat_of_valid _ (by omega)
    have h3 := (char_le_iff_toNat _ 'Z').mp hcon.2
    rw [h2] at h3
    have h4 : ('A' : Char).toNat ≤ c.toNat := (char_le_iff_toNat 'A' c).mp h.1
    have h5 : ('A' : Char).toNat = 65 := by decide
    have h6 : ('Z' : Char).toNat = 90 := by decide
    omega
  · rw [if_neg h]
    exact h

/-- Membership in the character class `[A-Za-z0-9-]` of the regular
expression used by `addUrl` (its complement is what gets substituted). -/
def url_char_allowed (c : Char) : Bool :=
  decide ('A' ≤ c ∧ c ≤ 'Z') || decide ('a' ≤ c ∧ c ≤ 'z') ||
    decide ('0' ≤ c ∧ c ≤ '9') || c == '-'

/-- The substitution `re.sub(r"[^A-Za-z0-9-]+", "-", ...)` from `addUrl`:
each maximal run of disallowed characters is replaced by a single hyphen. -/
def sub_disallowed_runs : List Char → List Char
  | [] => []
  | c :: cs =>
    if url_char_allowed c then c :: sub_disallowed_runs cs
    else '-' :: sub_disallowed_runs (cs.dropWhile (fun d => !url_char_allowed d))
termination_by l => l.length
decreasing_by
  all_goals simp only [List.length_cons]
  · omega
  · have := List.Sublist.length_le
      (List.dropWhile_sublist (fun d => !url_char_allowed d) (l := cs))
    omega

/-- The substitution `re.sub("-+", "-", url)` from `addUrl`: each run of
hyphens is collapsed to a single hyphen. -/
def collapse_hyphen_runs : List Char → List Char
  | [] => []
  | c :: cs =>
    if c == '-' then '-' :: collapse_hyphen_runs (cs.dropWhile (fun d => d == '-'))
    else c :: collapse_hyphen_runs cs
termination_by l => l.length
decreasing_by
  all_goals simp only [List.length_cons]
  · have := List.Sublist.length_le
      (List.dropWhile_sublist (fun d => d == '-') (l := cs))
    omega
  · omega

/-- Removal of trailing hyphens, half of Python's `url.strip("-")`: drop the
final run of hyphens. -/
def strip_trailing_hyphens (l : List Char) : List Char :=
  (l.reverse.dropWhile (fun c => c == '-')).reverse

/-- Python's `url.strip("-")`: leading and trailing hyphens removed. -/
def strip_hyphens (l : List Char) : List Char :=
  strip_trailing_hyphens (l.dropWhile (fun c => c == '-'))

/-- The slug computation of `CategoryDataOrchestrator.addUrl`
(`category_data_orchestrator.py` lines 249–259): lowercase the category
name, replace each maximal run of characters outside `[A-Za-z0-9-]` by a
hyphen, collapse hyphen runs, and strip leading/trailing hyphens. -/
def make_url_slug (category : String) : String :=
  String.mk (strip_hyphens (collapse_hyphen_runs
    (sub_disallowed_runs (category.data.map ascii_lower))))

/-- The method `CategoryDataOrchestrator.addUrl`: store the slug of each
category name in that category's `url` field. -/
def addUrl (cd : List (String × CategoryInfo)) : List (String × CategoryInfo) :=
  cd.map (fun p => (p.1, { p.2 with url := make_url_slug p.1 }))

/-- A character admissible in the finished slug: lowercase ASCII letter,
digit, or hyphen. -/
def slug_char_ok (c : Char) : Bool :=
  decide ('a' ≤ c ∧ c ≤ 'z') || decide ('0' ≤ c ∧ c ≤ '9') || c == '-'

/-- No two adjacent hyphens anywhere in the character list. -/
def no_adjacent_hyphens : List Char → Bool
  | c :: d :: rest => !(c == '-' && d == '-') && no_adjacent_hyphens (d :: rest)
  | _ => true

/-- The slug property claimed by the spec: only lowercase letters, digits
and hyphens, no two consecutive hyphens, and no hyphen at either end. -/
def is_url_safe_slug (s : String) : Bool :=
  s.data.all slug_char_ok && no_adjacent_hyphens s.data &&
    !(s.data.head? == some '-') && !(s.data.getLast? == some '-')

theorem sub_disallowed_runs_chars (l : List Char)
    (hl : ∀ c ∈ l, ¬ ('A' ≤ c ∧ c ≤ 'Z')) :
    ∀ c ∈ sub_disallowed_runs l, slug_char_ok c = true := by
  induction l using sub_disallowed_runs.induct with
  | case1 =>
    intro c hc
    simp [sub_disallowed_runs] at hc
  | case2 c cs hok ih =>
    intro d hd
    simp only [sub_disallowed_runs, if_pos hok] at hd
    rcases List.mem_cons.mp hd with rfl | hd
    · have hnu := hl d (List.mem_cons_self d cs)
      simp only [url_char_allowed, Bool.or_eq_true, decide_eq_true_eq,
        beq_iff_eq] at hok
      simp only [slug_char_ok, Bool.or_eq_true, decide_eq_true_eq, beq_iff_eq]
      tauto
    · exact ih (fun c hc => hl c (List.mem_cons_of_mem _ hc)) d hd
  | case3 c cs hok ih =>
    intro d hd
    simp only [sub_disallowed_runs, if_neg hok] at hd
    rcases List.mem_cons.mp hd with rfl | hd
    · decide
    · refine ih (fun c hc => hl c ?_) d hd
      exact List.mem_cons_of_mem _ (List.dropWhile_subset _ hc)

theorem collapse_hyphen_runs_chars (l : List Char) :
    ∀ c ∈ collapse_hyphen_runs l, c ∈ l ∨ c = '-' := by
  induction l using collapse_hyphen_runs.induct with
  | case1 =>
    intro c hc
    simp [collapse_hyphen_runs] at hc
  | case2 c cs hc ih =>
    intro d hd
    simp only [collapse_hyphen_runs, if_pos hc] at hd
    rcases List.mem_cons.mp hd with rfl | hd
    · exact Or.inr rfl
    · rcases ih d hd with h | h
      · exact Or.inl (List.mem_cons_of_mem _ (List.dropWhile_subset _ h))
      · exact Or.inr h
  | case3 c cs hc ih =>
    intro d hd
    simp only [collapse_hyphen_runs, if_neg hc] at hd
    rcases List.mem_cons.mp hd with rfl | hd
    · exact Or.inl (List.mem_cons_self d cs)
    · rcases ih d hd with h | h
      · exact Or.inl (List.mem_cons_of_mem _ h)
      · exact Or.inr h

theorem collapse_hyphen_runs_head (l : List Char) :
    (collapse_hyphen_runs l).head? = l.head? := by
  cases l with
  | nil => simp [collapse_hyphen_runs]
  | cons c cs =>
    by_cases hc : c = '-'
    · subst hc
      simp [collapse_hyphen_runs]
    · simp [collapse_hyphen_runs, hc]

theorem no_adjacent_tail (c : Char) (l : List Char)
    (h : no_adjacent_hyphens (c :: l) = true) : no_adjacent_hyphens l = true := by
  cases l with
  | nil => rfl
  | cons d rest =>
    rw [show no_adjacent_hyphens (c :: d :: rest) =
      (!(c == '-' && d == '-') && no_adjacent_hyphens (d :: rest)) from rfl] at h
    exact (Bool.and_eq_true_iff.mp h).2

theorem no_adjacent_cons_of (c : Char) (l : List Char)
    (hhead : ∀ d, l.head? = some d → ¬ (c = '-' ∧ d = '-'))
    (hl : no_adjacent_hyphens l = true) :
    no_adjacent_hyphens (c :: l) = true := by
  cases l with
  | nil => rfl
  | cons d rest =>
    rw [show no_adjacent_hyphens (c :: d :: rest) =
      (!(c == '-' && d == '-') && no_adjacent_hyphens (d :: rest)) from rfl]
    refine Bool.and_eq_true_iff.mpr ⟨?_, hl⟩
    have hcd := hhead d rfl
    cases hc : (c == '-') <;> cases hd : (d == '-') <;>
      simp_all [beq_iff_eq]

theorem no_adjacent_dropWhile (p : Char → Bool) (l : List Char)
    (h : no_adjacent_hyphens l = true) :
    no_adjacent_hyphens (l.dropWhile p) = true := by
  induction l with
  | nil => simpa using h
  | cons c cs ih =>
    rw [List.dropWhile_cons]
    split
    · exact ih (no_adjacent_tail _ _ h)
    · exact h

theorem head_dropWhile_ne (p : Char → Bool) (l : List Char) (d : Char)
    (h : (l.dropWhile p).head? = some d) : p d = false := by
  have hh := List.head?_dropWhile_not p l
  rw [h] at hh
  exact hh

theorem collapse_no_adjacent (l : List Char) :
    no_adjacent_hyphens (collapse_hyphen_runs l) = true := by
  induction l using collapse_hyphen_runs.induct with
  | case1 => simp [collapse_hyphen_runs, no_adjacent_hyphens]
  | case2 c cs hc ih =>
    simp only [collapse_hyphen_runs, if_pos hc]
    refine no_adjacent_cons_of _ _ ?_ ih
    intro d hd
    rw [collapse_hyphen_runs_head] at hd
    have := head_dropWhile_ne _ _ _ hd
    simp only [beq_eq_false_iff_ne, ne_eq] at this
    exact fun hcon => this hcon.2
  | case3 c cs hc ih =>
    simp only [collapse_hyphen_runs, if_neg hc]
    refine no_adjacent_cons_of _ _ ?_ ih
    intro d _
    have : ¬ c = '-' := by simpa using hc
    exact fun hcon => this hcon.1

theorem strip_trailing_front (l : List Char) :
    strip_trailing_hyphens l <+: l := by
  unfold strip_trailing_hyphens
  have h := List.dropWhile_suffix (l := l.reverse) (fun c => c == '-')
  have h2 : (l.reverse.dropWhile (fun c => c == '-')).reverse <+:
      l.reverse.reverse := List.reverse_prefix.mpr h
  simpa using h2

theorem strip_trailing_subset (l : List Char) :
    ∀ c ∈ strip_trailing_hyphens l, c ∈ l :=
  fun _ hc => (strip_trailing_front l).subset hc

theorem head_eq_of_is_prefix {α : Type} (l1 l2 : List α) (h : l1 <+: l2)
    (d : α) (hd : l1.head? = some d) : l2.head? = some d := by
  obtain ⟨t, rfl⟩ := h
  rw [List.head?_append, hd]
  rfl

theorem strip_trailing_head (l : List Char) (d : Char)
    (h : (strip_trailing_hyphens l).head? = some d) : l.head? = some d :=
  head_eq_of_is_prefix _ _ (strip_trailing_front l) d h

theorem no_adjacent_append_left (l t : List Char)
    (h : no_adjacent_hyphens (l ++ t) = true) :
    no_adjacent_hyphens l = true := by
  induction l with
  | nil => rfl
  | cons c cs ih =>
    cases cs with
    | nil => rfl
    | cons d ds =>
      rw [show ((c :: d :: ds) ++ t) = c :: d :: (ds ++ t) from rfl] at h
      rw [show no_adjacent_hyphens (c :: d :: (ds ++ t)) =
        (!(c == '-' && d == '-') && no_adjacent_hyphens (d :: (ds ++ t))) from rfl] at h
      rw [show no_adjacent_hyphens (c :: d :: ds) =
        (!(c == '-' && d == '-') && no_adjacent_hyphens (d :: ds)) from rfl]
      have hparts := Bool.and_eq_true_iff.mp h
      exact Bool.and_eq_true_iff.mpr ⟨hparts.1, ih hparts.2⟩

theorem strip_trailing_no_adjacent (l : List Char)
    (h : no_adjacent_hyphens l = true) :
    no_adjacent_hyphens (strip_trailing_hyphens l) = true := by
  obtain ⟨t, ht⟩ := strip_trailing_front l
  refine no_adjacent_append_left _ t ?_
  rw [ht]
  exact h

theorem strip_trailing_last (l : List Char) (d : Char)
    (h : (strip_trailing_hyphens l).getLast? = some d) : ¬ d = '-' := by
  unfold strip_trailing_hyphens at h
  rw [List.getLast?_reverse] at h
  have := head_dropWhile_ne _ _ _ h
  simpa using this

theorem make_url_slug_valid (s : String) :
    is_url_safe_slug (make_url_slug s) = true := by
  have h0 : ∀ c ∈ s.data.map ascii_lower, ¬ ('A' ≤ c ∧ c ≤ 'Z') := by
    intro c hc
    obtain ⟨d, _, rfl⟩ := List.mem_map.mp hc
    exact ascii_lower_not_upper d
  have h1 : ∀ c ∈ sub_disallowed_runs (s.data.map ascii_lower),
      slug_char_ok c = true := sub_disallowed_runs_chars _ h0
  set l2 := collapse_hyphen_runs (sub_disallowed_runs (s.data.map ascii_lower))
    with hl2
  have h2chars : ∀ c ∈ l2, slug_char_ok c = true := by
    intro c hc
    rcases collapse_hyphen_runs_chars _ c hc with h | rfl
    · exact h1 c h
    · decide
  have h2adj : no_adjacent_hyphens l2 = true := collapse_no_adjacent _
  set l3 := l2.dropWhile (fun c => c == '-') with hl3
  have h3chars : ∀ c ∈ l3, slug_char_ok c = true :=
    fun c hc => h2chars c (List.dropWhile_subset _ hc)
  have h3adj : no_adjacent_hyphens l3 = true := no_adjacent_dropWhile _ _ h2adj
  have h3head : ∀ d, l3.head? = some d → ¬ d = '-' := by
    intro d hd
    have := head_dropWhile_ne _ _ _ hd
    simpa using this
  set l4 := strip_trailing_hyphens l3 with hl4
  have h4chars : ∀ c ∈ l4, slug_char_ok c = true :=
    fun c hc => h3chars c (strip_trailing_subset _ c hc)
  have h4adj : no_adjacent_hyphens l4 = true := strip_trailing_no_adjacent _ h3adj
  have h4head : ∀ d, l4.head? = some d → ¬ d = '-' :=
    fun d hd => h3head d (strip_trailing_head _ d hd)
  have h4last : ∀ d, l4.getLast? = some d → ¬ d = '-' :=
    fun d hd => strip_trailing_last _ d hd
  have hdata : (make_url_slug s).data = l4 := rfl
  simp only [is_url_safe_slug, hdata, Bool.and_eq_true, List.all_eq_true]
  refine ⟨⟨⟨h4chars, h4adj⟩, ?_⟩, ?_⟩
  · cases hh : l4.head? with
    | none => simp
    | some d =>
      have := h4head d hh
      simpa using this
  · cases hh : l4.getLast? with
    | none => simp
    | some d =>
      have := h4last d hh
      simpa using this

/-- C7: after `addUrl`, every category's `url` field is the category name
lowercased with each maximal run of characters outside ASCII letters,
digits and hyphens replaced by one hyphen, consecutive hyphens collapsed
and leading/trailing hyphens stripped, and the resulting slug contains only
lowercase letters, digits and single interior hyphens. -/
theorem C7_addUrl_slug (cd : List (String × CategoryInfo)) (n : String)
    (i : CategoryInfo) (h : (n, i) ∈ addUrl cd) :
    i.url = make_url_slug n ∧ is_url_safe_slug (make_url_slug n) = true := by
  refine ⟨?_, make_url_slug_valid n⟩
  simp only [addUrl, List.mem_map] at h
  obtain ⟨p, hp, heq⟩ := h
  rw [Prod.mk.injEq] at heq
  obtain ⟨h1, h2⟩ := heq
  subst h2
  show make_url_slug p.1 = make_url_slug n
  rw [h1]

/-- The witness category after `addUrl`, its url set to the slug. -/
def c7_info_with_url : CategoryInfo :=
  { new_category_info "Computer Science & AI" with
    url := make_url_slug "Computer Science & AI" }

/-- C7 witness: a concrete category name containing spaces and punctuation;
`addUrl` stores its slug and the slug satisfies the URL-safety property. -/
theorem C7_addUrl_slug_witness :
    (("Computer Science & AI", c7_info_with_url) ∈
        addUrl [("Computer Science & AI",
          new_category_info "Computer Science & AI")]) ∧
    (c7_info_with_url.url = make_url_slug "Computer Science & AI" ∧
      is_url_safe_slug (make_url_slug "Computer Science & AI") = true) := by
  have h : ("Computer Science & AI", c7_info_with_url) ∈
      addUrl [("Computer Science & AI",
        new_category_info "Computer Science & AI")] :=
    List.mem_singleton.mpr rfl
  exact ⟨h, C7_addUrl_slug _ _ _ h⟩

/-! ### More association-list lemmas, for the Statistics Refiner -/

theorem except_ok_bind {E A B : Type} (a : A) (f : A → Except E B) :
    (Except.ok a >>= f) = f a := rfl

theorem except_error_bind {E A B : Type} (e : E) (f : A → Except E B) :
    ((Except.error e : Except E A) >>= f) = Except.error e := rfl

theorem alist_lookup_none_iff {V : Type} (k : String) (m : List (String × V)) :
    alist_lookup k m = none ↔ k ∉ alist_keys m := by
  induction m with
  | nil => simp [alist_lookup, alist_keys]
  | cons hd tl ih =>
    obtain ⟨k2, w⟩ := hd
    by_cases hk : k2 = k
    · simp [alist_lookup, alist_keys, hk]
    · rw [show alist_lookup k ((k2, w) :: tl) = alist_lookup k tl by
        simp [alist_lookup, hk]]
      rw [ih]
      simp only [alist_keys, List.map_cons, List.mem_cons, not_or]
      constructor
      · intro h
        exact ⟨fun hc => hk hc.symm, h⟩
      · intro h
        exact h.2

theorem mem_keys_of_lookup {V : Type} (k : String) (m : List (String × V))
    (v : V) (h : alist_lookup k m = some v) : k ∈ alist_keys m := by
  by_contra hk
  rw [← alist_lookup_none_iff k m] at hk
  rw [h] at hk
  exact Option.noConfusion hk

theorem alist_lookup_mem {V : Type} (k : String) (m : List (String × V))
    (v : V) (h : alist_lookup k m = some v) : (k, v) ∈ m := by
  induction m with
  | nil => simp [alist_lookup] at h
  | cons hd tl ih =>
    obtain ⟨k2, w⟩ := hd
    by_cases hk : k2 = k
    · simp only [alist_lookup, if_pos hk, Option.some.injEq] at h
      subst hk
      subst h
      exact List.mem_cons_self _ _
    · simp only [alist_lookup, if_neg hk] at h
      exact List.mem_cons_of_mem _ (ih h)

theorem alist_lookup_set_self {V : Type} (k : String) (v : V)
    (m : List (String × V)) : alist_lookup k (alist_set k v m) = some v := by
  induction m with
  | nil => simp [alist_set, alist_lookup]
  | cons hd tl ih =>
    obtain ⟨k2, w⟩ := hd
    by_cases hk : k2 = k
    · simp [alist_set, alist_lookup, hk]
    · simp [alist_set, alist_lookup, hk, ih]

theorem alist_lookup_set_other {V : Type} (k c : String) (v : V)
    (m : List (String × V)) (hne : c ≠ k) :
    alist_lookup c (alist_set k v m) = alist_lookup c m := by
  induction m with
  | nil =>
    simp only [alist_set, alist_lookup]
    rw [if_neg (fun h : k = c => hne h.symm)]
  | cons hd tl ih =>
    obtain ⟨k2, w⟩ := hd
    simp only [alist_set]
    by_cases hk : k2 = k
    · rw [if_pos hk]
      have hk2c : ¬ k2 = c := fun h => hne (h.symm.trans hk)
      simp only [alist_lookup]
      rw [if_neg hk2c, if_neg hk2c]
    · rw [if_neg hk]
      simp only [alist_lookup]
      by_cases hc : k2 = c
      · rw [if_pos hc, if_pos hc]
      · rw [if_neg hc, if_neg hc]
        exact ih

theorem alist_set_eq_self {V : Type} (k : String) (v : V)
    (m : List (String × V)) (h : alist_lookup k m = some v) :
    alist_set k v m = m := by
  induction m with
  | nil => simp [alist_lookup] at h
  | cons hd tl ih =>
    obtain ⟨k2, w⟩ := hd
    by_cases hk : k2 = k
    · simp only [alist_lookup, if_pos hk, Option.some.injEq] at h
      simp [alist_set, hk, h]
    · simp only [alist_lookup, if_neg hk] at h
      simp [alist_set, hk, ih h]

theorem alist_keys_set_of_mem {V : Type} (k : String) (v : V)
    (m : List (String × V)) (h : k ∈ alist_keys m) :
    alist_keys (alist_set k v m) = alist_keys m := by
  induction m with
  | nil => simp [alist_keys] at h
  | cons hd tl ih =>
    obtain ⟨k2, w⟩ := hd
    by_cases hk : k2 = k
    · simp [alist_set, alist_keys, hk]
    · simp only [alist_keys, List.map_cons, List.mem_cons] at h
      rcases h with h | h
      · exact absurd h.symm hk
      · have ih2 := ih h
        simp only [alist_keys] at ih2
        simp [alist_set, alist_keys, hk, ih2]

theorem alist_keys_set_of_not_mem {V : Type} (k : String) (v : V)
    (m : List (String × V)) (h : k ∉ alist_keys m) :
    alist_keys (alist_set k v m) = alist_keys m ++ [k] := by
  induction m with
  | nil => simp [alist_set, alist_keys]
  | cons hd tl ih =>
    obtain ⟨k2, w⟩ := hd
    simp only [alist_keys, List.map_cons, List.mem_cons] at h
    push_neg at h
    have hk2 : ¬ k2 = k := fun hk => h.1 hk.symm
    have ih2 := ih h.2
    simp only [alist_keys] at ih2
    simp [alist_set, alist_keys, hk2, ih2]

theorem keys_erase_subset {V : Type} (k c : String) (m : List (String × V))
    (h : c ∈ alist_keys (alist_erase k m)) : c ∈ alist_keys m := by
  induction m with
  | nil => simpa [alist_erase, alist_keys] using h
  | cons hd tl ih =>
    obtain ⟨k2, w⟩ := hd
    by_cases hk : k2 = k
    · simp only [alist_erase, if_pos hk] at h
      simp only [alist_keys, List.map_cons, List.mem_cons]
      exact Or.inr h
    · simp only [alist_erase, if_neg hk, alist_keys, List.map_cons,
        List.mem_cons] at h ⊢
      rcases h with h | h
      · exact Or.inl h
      · exact Or.inr (ih h)

theorem keys_erase_sublist {V : Type} (k : String) (m : List (String × V)) :
    List.Sublist (alist_keys (alist_erase k m)) (alist_keys m) := by
  induction m with
  | nil => simp [alist_erase, alist_keys]
  | cons hd tl ih =>
    obtain ⟨k2, w⟩ := hd
    by_cases hk : k2 = k
    · simp only [alist_erase, if_pos hk, alist_keys, List.map_cons]
      exact List.sublist_cons_of_sublist _ (List.Sublist.refl _)
    · simp only [alist_erase, if_neg hk, alist_keys, List.map_cons]
      exact List.Sublist.cons₂ _ ih

theorem nodup_keys_erase {V : Type} (k : String) (m : List (String × V))
    (h : List.Nodup (alist_keys m)) :
    List.Nodup (alist_keys (alist_erase k m)) :=
  (keys_erase_sublist k m).nodup h

theorem not_mem_keys_erase_self {V : Type} (k : String) (m : List (String × V))
    (h : List.Nodup (alist_keys m)) : k ∉ alist_keys (alist_erase k m) := by
  induction m with
  | nil => simp [alist_erase, alist_keys]
  | cons hd tl ih =>
    obtain ⟨k2, w⟩ := hd
    simp only [alist_keys, List.map_cons, List.nodup_cons] at h
    by_cases hk : k2 = k
    · simp only [alist_erase, if_pos hk]
      rw [← hk]
      exact h.1
    · simp only [alist_erase, if_neg hk, alist_keys, List.map_cons,
        List.mem_cons]
      push_neg
      exact ⟨fun hc => hk hc.symm, ih h.2⟩

theorem mem_entries_set {V : Type} (k : String) (v : V)
    (m : List (String × V)) (p : String × V) (h : p ∈ alist_set k v m) :
    p ∈ m ∨ p = (k, v) := by
  induction m with
  | nil => simpa [alist_set] using h
  | cons hd tl ih =>
    obtain ⟨k2, w⟩ := hd
    by_cases hk : k2 = k
    · simp only [alist_set, if_pos hk, List.mem_cons] at h
      rcases h with h | h
      · subst hk
        exact Or.inr h
      · exact Or.inl (List.mem_cons_of_mem _ h)
    · simp only [alist_set, if_neg hk, List.mem_cons] at h
      rcases h with h | h
      · exact Or.inl (h ▸ List.mem_cons_self _ _)
      · rcases ih h with h2 | h2
        · exact Or.inl (List.mem_cons_of_mem _ h2)
        · exact Or.inr h2

/-! ### The Statistics Refiner (C4) -/

/-- The per-faculty-member statistics entry held by a `FacultyStats`
container: per-category article count, citation total, and the contributing
article identifiers. -/
structure FacultyMemberStats where
  article_count : Nat
  total_citations : Nat
  dois : Finset String
  deriving DecidableEq

/-- A `NameVariation` group: the set of variant spellings recorded for one
canonical name (the canonical name itself is the key of the
`name_variations` map). -/
structure NameVariation where
  variations : List String
  deriving DecidableEq

/-- Modelled from the spec: the canonical name of a spelling under a
`name_variations` map — the key of the first group listing the spelling as
a variant, or the spelling itself when no group claims it. -/
def canonical_of (nvs : List (String × NameVariation)) (name : String) : String :=
  match nvs.find? (fun p => p.2.variations.contains name) with
  | some p => p.1
  | none => name

/-- Modelled from the spec: merging one faculty entry into another — article
counts and citation totals are summed, article-identifier sets unioned. -/
def merge_member_stats (target extra : FacultyMemberStats) : FacultyMemberStats :=
  { article_count := target.article_count + extra.article_count,
    total_citations := target.total_citations + extra.total_citations,
    dois := target.dois ∪ extra.dois }

/-- Modelled from the spec: `FacultyStats.refine_faculty_stats` for a single
member (the `FacultyStats` dataclass is not under src/, §4.4): when the
member's name maps to a different canonical name, its entry is merged into
the canonical entry and the variant key deleted; when no canonical entry
exists yet, the entry is renamed in place; a name that is already canonical
is left alone. -/
def refine_one_member (nvs : List (String × NameVariation))
    (m : List (String × FacultyMemberStats)) (name : String) :
    List (String × FacultyMemberStats) :=
  match alist_lookup name m with
  | none => m
  | some entry =>
    if canonical_of nvs name = name then m
    else
      match alist_lookup (canonical_of nvs name) (alist_erase name m) with
      | some target =>
        alist_set (canonical_of nvs name) (merge_member_stats target entry)
          (alist_erase name m)
      | none => alist_erase name m ++ [(canonical_of nvs name, entry)]

/-- The per-category member loop of
`CategoryDataOrchestrator.refine_faculty_stats`: the member names are
snapshotted once (`list(... .keys())`) and each is refined in turn. -/
def refine_category_stats (nvs : List (String × NameVariation))
    (m : List (String × FacultyMemberStats)) :
    List (String × FacultyMemberStats) :=
  (alist_keys m).foldl (refine_one_member nvs) m

/-- One step of the category loop of
`CategoryDataOrchestrator.refine_faculty_stats`: `faculty_stats[category]`
raises `KeyError` when the category is missing, otherwise that category's
member map is refined. -/
def refine_stats_step (nvs : List (String × NameVariation))
    (fs : List (String × List (String × FacultyMemberStats)))
    (category : String) :
    Except String (List (String × List (String × FacultyMemberStats))) :=
  match alist_lookup category fs with
  | none => Except.error "KeyError"
  | some m => Except.ok (alist_set category (refine_category_stats nvs m) fs)

/-- The method `CategoryDataOrchestrator.refine_faculty_stats` from
`category_data_orchestrator.py` (lines 226–236): iterate the categories of
`category_dict` and refine each category's faculty statistics in place; the
`category_dict` itself and the global faculty statistics are only read,
never written. -/
def refine_faculty_stats (nvs : List (String × NameVariation))
    (category_dict : List (String × CategoryInfo))
    (faculty_stats : List (String × List (String × FacultyMemberStats))) :
    Except String (List (String × List (String × FacultyMemberStats))) :=
  (alist_keys category_dict).foldlM (refine_stats_step nvs) faculty_stats

theorem refine_one_member_of_canonical (nvs : List (String × NameVariation))
    (m : List (String × FacultyMemberStats)) (name : String)
    (hname : canonical_of nvs name = name) :
    refine_one_member nvs m name = m := by
  cases hl : alist_lookup name m with
  | none => simp [refine_one_member, hl]
  | some entry => simp [refine_one_member, hl, hname]

theorem fold_refine_eq_self (nvs : List (String × NameVariation)) :
    ∀ (names : List String) (m : List (String × FacultyMemberStats)),
      (∀ k ∈ names, canonical_of nvs k = k) →
      names.foldl (refine_one_member nvs) m = m := by
  intro names
  induction names with
  | nil => intro m _; rfl
  | cons name rest ih =>
    intro m h
    rw [List.foldl_cons,
      refine_one_member_of_canonical nvs m name (h name (List.mem_cons_self _ _))]
    exact ih m (fun k hk => h k (List.mem_cons_of_mem _ hk))

theorem fold_refine_keys_canonical (nvs : List (String × NameVariation))
    (hidem : ∀ n, canonical_of nvs (canonical_of nvs n) = canonical_of nvs n) :
    ∀ (names : List String) (m : List (String × FacultyMemberStats)),
      List.Nodup (alist_keys m) →
      (∀ k ∈ alist_keys m, canonical_of nvs k = k ∨ k ∈ names) →
      (∀ k ∈ alist_keys (names.foldl (refine_one_member nvs) m),
        canonical_of nvs k = k) ∧
      List.Nodup (alist_keys (names.foldl (refine_one_member nvs) m)) := by
  intro names
  induction names with
  | nil =>
    intro m hnd h
    exact ⟨fun k hk => (h k hk).resolve_right (List.not_mem_nil k), hnd⟩
  | cons name rest ih =>
    intro m hnd h
    rw [List.foldl_cons]
    cases hl : alist_lookup name m with
    | none =>
      rw [show refine_one_member nvs m name = m by simp [refine_one_member, hl]]
      refine ih m hnd ?_
      intro k hk
      rcases h k hk with hc | hmem
      · exact Or.inl hc
      · rcases List.mem_cons.mp hmem with rfl | hr
        · exact absurd hk ((alist_lookup_none_iff k m).mp hl)
        · exact Or.inr hr
    | some entry =>
      by_cases hcan : canonical_of nvs name = name
      · rw [refine_one_member_of_canonical nvs m name hcan]
        refine ih m hnd ?_
        intro k hk
        rcases h k hk with hc | hmem
        · exact Or.inl hc
        · rcases List.mem_cons.mp hmem with rfl | hr
          · exact Or.inl hcan
          · exact Or.inr hr
      · have hker : List.Nodup (alist_keys (alist_erase name m)) :=
          nodup_keys_erase name m hnd
        have hkmem : ∀ k ∈ alist_keys (alist_erase name m),
            canonical_of nvs k = k ∨ k ∈ rest := by
          intro k hk
          have hk2 : k ∈ alist_keys m := keys_erase_subset name k m hk
          rcases h k hk2 with hc | hmem
          · exact Or.inl hc
          · rcases List.mem_cons.mp hmem with rfl | hr
            · exact absurd hk (not_mem_keys_erase_self k m hnd)
            · exact Or.inr hr
        cases hl2 : alist_lookup (canonical_of nvs name) (alist_erase name m) with
        | some target =>
          rw [show refine_one_member nvs m name =
              alist_set (canonical_of nvs name) (merge_member_stats target entry)
                (alist_erase name m) by simp [refine_one_member, hl, hcan, hl2]]
          have hcmem : canonical_of nvs name ∈ alist_keys (alist_erase name m) :=
            mem_keys_of_lookup _ _ _ hl2
          have hkeys := alist_keys_set_of_mem (canonical_of nvs name)
            (merge_member_stats target entry) (alist_erase name m) hcmem
          refine ih _ ?_ ?_
          · rw [hkeys]
            exact hker
          · intro k hk
            rw [hkeys] at hk
            exact hkmem k hk
        | none =>
          rw [show refine_one_member nvs m name =
              alist_erase name m ++ [(canonical_of nvs name, entry)] by
            simp [refine_one_member, hl, hcan, hl2]]
          have hcnot : canonical_of nvs name ∉ alist_keys (alist_erase name m) :=
            (alist_lookup_none_iff _ _).mp hl2
          have hkeys : alist_keys (alist_erase name m ++
              [(canonical_of nvs name, entry)]) =
              alist_keys (alist_erase name m) ++ [canonical_of nvs name] := by
            simp [alist_keys]
          refine ih _ ?_ ?_
          · rw [hkeys]
            refine List.Nodup.append hker (List.nodup_singleton _) ?_
            intro k hk1 hk2
            rw [List.mem_singleton] at hk2
            subst hk2
            exact hcnot hk1
          · intro k hk
            rw [hkeys, List.mem_append, List.mem_singleton] at hk
            rcases hk with hk | rfl
            · exact hkmem k hk
            · exact Or.inl (hidem name)

theorem refine_category_stats_keys_canonical
    (nvs : List (String × NameVariation))
    (hidem : ∀ n, canonical_of nvs (canonical_of nvs n) = canonical_of nvs n)
    (m : List (String × FacultyMemberStats))
    (hnd : List.Nodup (alist_keys m)) :
    ∀ k ∈ alist_keys (refine_category_stats nvs m), canonical_of nvs k = k :=
  (fold_refine_keys_canonical nvs hidem (alist_keys m) m hnd
    (fun k hk => Or.inr hk)).1

theorem refine_category_stats_nodup (nvs : List (String × NameVariation))
    (hidem : ∀ n, canonical_of nvs (canonical_of nvs n) = canonical_of nvs n)
    (m : List (String × FacultyMemberStats))
    (hnd : List.Nodup (alist_keys m)) :
    List.Nodup (alist_keys (refine_category_stats nvs m)) :=
  (fold_refine_keys_canonical nvs hidem (alist_keys m) m hnd
    (fun k hk => Or.inr hk)).2

theorem refine_category_stats_idem (nvs : List (String × NameVariation))
    (hidem : ∀ n, canonical_of nvs (canonical_of nvs n) = canonical_of nvs n)
    (m : List (String × FacultyMemberStats))
    (hnd : List.Nodup (alist_keys m)) :
    refine_category_stats nvs (refine_category_stats nvs m) =
      refine_category_stats nvs m := by
  unfold refine_category_stats
  exact fold_refine_eq_self nvs _ _
    (refine_category_stats_keys_canonical nvs hidem m hnd)

theorem foldlM_refine_eq_self (nvs : List (String × NameVariation)) :
    ∀ (cats : List String)
      (fs : List (String × List (String × FacultyMemberStats))),
      (∀ cat ∈ cats, ∃ m, alist_lookup cat fs = some m ∧
        refine_category_stats nvs m = m) →
      cats.foldlM (refine_stats_step nvs) fs = Except.ok fs := by
  intro cats
  induction cats with
  | nil => intro fs _; rfl
  | cons cat rest ih =>
    intro fs h
    obtain ⟨m, hl, hfix⟩ := h cat (List.mem_cons_self _ _)
    have hstep : refine_stats_step nvs fs cat = Except.ok fs := by
      simp [refine_stats_step, hl, hfix, alist_set_eq_self cat m fs hl]
    rw [List.foldlM_cons, hstep]
    exact ih fs (fun c hc => h c (List.mem_cons_of_mem _ hc))

theorem foldlM_refine_preserves_fixed (nvs : List (String × NameVariation)) :
    ∀ (cats : List String)
      (fs fs1 : List (String × List (String × FacultyMemberStats)))
      (cat : String) (mc : List (String × FacultyMemberStats)),
      cats.foldlM (refine_stats_step nvs) fs = Except.ok fs1 →
      alist_lookup cat fs = some mc →
      refine_category_stats nvs mc = mc →
      ∃ mc2, alist_lookup cat fs1 = some mc2 ∧
        refine_category_stats nvs mc2 = mc2 := by
  intro cats
  induction cats with
  | nil =>
    intro fs fs1 cat mc hrun hl hfix
    simp only [List.foldlM_nil] at hrun
    cases hrun
    exact ⟨mc, hl, hfix⟩
  | cons cat2 rest ih =>
    intro fs fs1 cat mc hrun hl hfix
    rw [List.foldlM_cons] at hrun
    cases hl2 : alist_lookup cat2 fs with
    | none =>
      rw [show refine_stats_step nvs fs cat2 = Except.error "KeyError" by
        simp [refine_stats_step, hl2]] at hrun
      rw [except_error_bind] at hrun
      exact Except.noConfusion hrun
    | some m2 =>
      rw [show refine_stats_step nvs fs cat2 =
          Except.ok (alist_set cat2 (refine_category_stats nvs m2) fs) by
        simp [refine_stats_step, hl2]] at hrun
      rw [except_ok_bind] at hrun
      by_cases hc : cat = cat2
      · subst hc
        rw [hl] at hl2
        cases hl2
        refine ih (alist_set cat (refine_category_stats nvs mc) fs) fs1 cat mc
          hrun ?_ hfix
        rw [alist_lookup_set_self, hfix]
      · refine ih _ _ cat mc hrun ?_ hfix
        rw [alist_lookup_set_other cat2 cat _ fs hc]
        exact hl

theorem foldlM_refine_good (nvs : List (String × NameVariation))
    (hidem : ∀ n, canonical_of nvs (canonical_of nvs n) = canonical_of nvs n) :
    ∀ (cats : List String)
      (fs fs1 : List (String × List (String × FacultyMemberStats))),
      (∀ p ∈ fs, List.Nodup (alist_keys p.2)) →
      cats.foldlM (refine_stats_step nvs) fs = Except.ok fs1 →
      ∀ cat ∈ cats, ∃ m, alist_lookup cat fs1 = some m ∧
        refine_category_stats nvs m = m := by
  intro cats
  induction cats with
  | nil =>
    intro fs fs1 _ _ cat hcat
    exact absurd hcat (List.not_mem_nil cat)
  | cons cat2 rest ih =>
    intro fs fs1 hgood hrun cat hcat
    rw [List.foldlM_cons] at hrun
    cases hl2 : alist_lookup cat2 fs with
    | none =>
      rw [show refine_stats_step nvs fs cat2 = Except.error "KeyError" by
        simp [refine_stats_step, hl2]] at hrun
      rw [except_error_bind] at hrun
      exact Except.noConfusion hrun
    | some m2 =>
      rw [show refine_stats_step nvs fs cat2 =
          Except.ok (alist_set cat2 (refine_category_stats nvs m2) fs) by
        simp [refine_stats_step, hl2]] at hrun
      rw [except_ok_bind] at hrun
      have hm2nd : List.Nodup (alist_keys m2) :=
        hgood (cat2, m2) (alist_lookup_mem cat2 fs m2 hl2)
      have hgood2 : ∀ p ∈ alist_set cat2 (refine_category_stats nvs m2) fs,
          List.Nodup (alist_keys p.2) := by
        intro p hp
        rcases mem_entries_set _ _ _ p hp with hp2 | rfl
        · exact hgood p hp2
        · exact refine_category_stats_nodup nvs hidem m2 hm2nd
      rcases List.mem_cons.mp hcat with rfl | hr
      · refine foldlM_refine_preserves_fixed nvs rest _ fs1 cat
          (refine_category_stats nvs m2) hrun ?_ ?_
        · exact alist_lookup_set_self _ _ _
        · exact refine_category_stats_idem nvs hidem m2 hm2nd
      · exact ih _ fs1 hgood2 hrun cat hr

/-- C4: refinement is idempotent — for every already-refined state, applying
`refine_faculty_stats` a second time with the same `NameVariation` mapping
returns the state unchanged (merging an already-canonical entry into itself
is a no-op); `category_dict` is only read for its keys and the global
faculty statistics are never touched by this method, so every map is left
unchanged by the second application.  The hypotheses say that the canonical
mapping is idempotent (canonical representatives map to themselves, as the
Resolver's partition guarantees) and that each category's member map has
Python-dict keys (no duplicates). -/
theorem C4_refine_faculty_stats_idempotent
    (nvs : List (String × NameVariation))
    (category_dict : List (String × CategoryInfo))
    (fs fs1 : List (String × List (String × FacultyMemberStats)))
    (hidem : ∀ n, canonical_of nvs (canonical_of nvs n) = canonical_of nvs n)
    (hnd : ∀ p ∈ fs, List.Nodup (alist_keys p.2))
    (h1 : refine_faculty_stats nvs category_dict fs = Except.ok fs1) :
    refine_faculty_stats nvs category_dict fs1 = Except.ok fs1 := by
  unfold refine_faculty_stats at h1 ⊢
  exact foldlM_refine_eq_self nvs _ _
    (foldlM_refine_good nvs hidem (alist_keys category_dict) fs fs1 hnd h1)

/-- A concrete `NameVariation` map: "J. Smith" is a variant of the canonical
"John Smith". -/
def c4_nvs : List (String × NameVariation) :=
  [("John Smith", ⟨["J. Smith"]⟩)]

/-- A concrete category dictionary with the single category "COM". -/
def c4_category_dict : List (String × CategoryInfo) :=
  [("COM", new_category_info "COM")]

/-- Concrete pre-refinement faculty statistics: two spellings of the same
person in the "COM" category. -/
def c4_fs : List (String × List (String × FacultyMemberStats)) :=
  [("COM", [("J. Smith", ⟨1, 5, ∅⟩), ("John Smith", ⟨1, 3, ∅⟩)])]

/-- The same statistics after one refinement pass: the variant entry merged
into the canonical one. -/
def c4_fs1 : List (String × List (String × FacultyMemberStats)) :=
  [("COM", [("John Smith", ⟨2, 8, ∅⟩)])]

theorem c4_canonical_eq (n : String) :
    canonical_of c4_nvs n = if n = "J. Smith" then "John Smith" else n := by
  by_cases hn : n = "J. Smith"
  · subst hn
    rfl
  · have hb : ("J. Smith" == n) = false :=
      beq_eq_false_iff_ne.mpr (fun h => hn h.symm)
    simp [canonical_of, c4_nvs, List.find?, List.contains, List.any, hb, hn]

theorem c4_nvs_idem :
    ∀ n, canonical_of c4_nvs (canonical_of c4_nvs n) = canonical_of c4_nvs n := by
  intro n
  rw [c4_canonical_eq n]
  by_cases hn : n = "J. Smith"
  · rw [if_pos hn, c4_canonical_eq, if_neg (by decide)]
  · rw [if_neg hn, c4_canonical_eq, if_neg hn]

/-- C4 witness: a concrete refinement run merging "J. Smith" into
"John Smith"; the second application of `refine_faculty_stats` returns the
refined state unchanged. -/
theorem C4_refine_faculty_stats_idempotent_witness :
    (∀ n, canonical_of c4_nvs (canonical_of c4_nvs n) = canonical_of c4_nvs n) ∧
    (∀ p ∈ c4_fs, List.Nodup (alist_keys p.2)) ∧
    refine_faculty_stats c4_nvs c4_category_dict c4_fs = Except.ok c4_fs1 ∧
    refine_faculty_stats c4_nvs c4_category_dict c4_fs1 = Except.ok c4_fs1 := by
  have hnd : ∀ p ∈ c4_fs, List.Nodup (alist_keys p.2) := by decide
  have h1 : refine_faculty_stats c4_nvs c4_category_dict c4_fs =
      Except.ok c4_fs1 := rfl
  exact ⟨c4_nvs_idem, hnd, h1,
    C4_refine_faculty_stats_idempotent c4_nvs c4_category_dict c4_fs c4_fs1
      c4_nvs_idem hnd h1⟩

end AcademicMetrics
